/-
Verification of the `martian` crate: a minimal HTTP/1.1 request parser
(`src/web/mod.rs`) and a method+URI router (`src/server/mod.rs`).

Strings are modelled as lists of characters (`Str`).  Rust functions that can
panic are modelled with an `Option` layer: `none` is a panic (index out of
range, `unwrap`, `expect`), `some` is normal completion.  `Result` values are
modelled with `Except`.  `HashMap` is modelled as an association list whose
insert overwrites the existing entry for the key.
-/
import Mathlib

namespace Martian

deriving instance DecidableEq for Except

/-- Strings, modelled as lists of characters. -/
abbrev Str := List Char

/-- Worker for `split`.  `fuel` bounds the recursion; `split` passes the
length of the string, which is enough because every step consumes at least
one character of `s` (the separators in this development are non-empty). -/
def splitGo (sep : Str) : Nat → Str → Str → List Str
  | _, cur, [] => [cur]
  | 0, cur, _ :: _ => [cur]
  | fuel + 1, cur, c :: rest =>
    if sep.isPrefixOf (c :: rest) then
      cur :: splitGo sep fuel [] (rest.drop (sep.length - 1))
    else
      splitGo sep fuel (cur ++ [c]) rest

/-- Model of Rust `str::split` with a non-empty string pattern followed by
`collect::<Vec<_>>`: the segments of `s` between the non-overlapping
left-to-right occurrences of `sep`, empty segments included; splitting the
empty string gives `[[]]`. -/
def split (sep s : Str) : List Str := splitGo sep s.length [] s

/-- Model of Rust `Vec::join` / slice `join` with a string separator. -/
def join (sep : Str) (parts : List Str) : Str := List.intercalate sep parts

/-- Model of `HashMap::insert`: overwrite the entry of an existing key,
otherwise add the pair.  The list order is the key-arrival order. -/
def insertAssoc (m : List (Str × Str)) (k v : Str) : List (Str × Str) :=
  if m.any (fun p => p.1 = k) then
    m.map (fun p => if p.1 = k then (k, v) else p)
  else m ++ [(k, v)]

/-- The four ASCII digits test used by the float grammar (Rust accepts
exactly the ASCII digits `0`-`9` in a float numeral). -/
def isAsciiDigit (c : Char) : Bool :=
  c = '0' ∨ c = '1' ∨ c = '2' ∨ c = '3' ∨ c = '4' ∨
  c = '5' ∨ c = '6' ∨ c = '7' ∨ c = '8' ∨ c = '9'

/-- Numeric value of a non-empty all-digit string, `none` otherwise. -/
def digitsToNat? (cs : Str) : Option Nat :=
  if cs ≠ [] ∧ cs.all isAsciiDigit then
    some (cs.foldl (fun a c => a * 10 + (c.toNat - 48)) 0)
  else none

/-- Mantissa of a decimal numeral `digits`, `digits.digits`, `digits.` or
`.digits`: the digit string read as a natural number together with the
number of fraction digits.  `none` when the numeral is malformed. -/
def parseMantissa? (cs : Str) : Option (Nat × Nat) :=
  match split ['.'] cs with
  | [ip] => (digitsToNat? ip).map (fun n => (n, 0))
  | [ip, fp] =>
    if ip = [] then (digitsToNat? fp).map (fun f => (f, fp.length))
    else if fp = [] then (digitsToNat? ip).map (fun n => (n, 0))
    else
      match digitsToNat? ip, digitsToNat? fp with
      | some n, some f => some (n * 10 ^ fp.length + f, fp.length)
      | _, _ => none
  | _ => none

/-- Signed exponent part of a decimal numeral. -/
def parseExponent? (cs : Str) : Option Int :=
  match cs with
  | '+' :: rest => (digitsToNat? rest).map (fun n => (n : Int))
  | '-' :: rest => (digitsToNat? rest).map (fun n => -(n : Int))
  | _ => (digitsToNat? cs).map (fun n => (n : Int))

/-- Leading sign of a numeral: stripped, together with whether it was `-`. -/
def stripSign (s : Str) : Bool × Str :=
  match s with
  | [] => (false, [])
  | c :: rest =>
    if c = '+' then (false, rest)
    else if c = '-' then (true, rest)
    else (false, c :: rest)

/-- Model of Rust `str::parse::<f32>` on the finite-decimal fragment of its
grammar: an optional sign, a decimal mantissa and an optional `e`/`E`
exponent.  The value is kept exact as a rational; IEEE rounding is
abstracted away, and the `inf`/`infinity`/`NaN` forms are outside the
model (no claim exercises them). -/
def parseF32 (s : Str) : Option Rat :=
  let neg := (stripSign s).1
  let body := (stripSign s).2.map Char.toLower
  let mantExp : Option ((Nat × Nat) × Int) :=
    match split ['e'] body with
    | [m] => (parseMantissa? m).map (fun p => (p, (0 : Int)))
    | [m, e] =>
      match parseMantissa? m, parseExponent? e with
      | some p, some ev => some (p, ev)
      | _, _ => none
    | _ => none
  mantExp.map (fun pe =>
    let num : Int := if neg then -(pe.1.1 : Int) else (pe.1.1 : Int)
    let e : Int := pe.2 - (pe.1.2 : Int)
    if 0 ≤ e then mkRat (num * 10 ^ e.toNat) 1 else mkRat num (10 ^ (-e).toNat))

/-- Standard http methods (`src/web/mod.rs`, `HttpMethod`). -/
inductive HttpMethod
  | Get
  | Post
  | Delete
  | Options
deriving DecidableEq, Repr

/-- Model of Rust `str::to_lowercase` on the ASCII fragment (`Char.toLower`
lowers exactly the ASCII uppercase letters; every token compared against is
ASCII). -/
def toLowercase (s : Str) : Str := s.map Char.toLower

/-- Embedding of `HttpMethod::from` (`src/web/mod.rs` lines 34-42): match
the lowercased token against the four known methods, else `Err`. -/
def HttpMethod.from (method_string : Str) : Except String HttpMethod :=
  if toLowercase method_string = "get".toList then .ok .Get
  else if toLowercase method_string = "post".toList then .ok .Post
  else if toLowercase method_string = "delete".toList then .ok .Delete
  else if toLowercase method_string = "options".toList then .ok .Options
  else .error "Given cannot be converted to HttpMethod"

/-- Embedding of `get_http_version` (`src/web/mod.rs` lines 141-146): split
on `/`, take segment 1 (a missing segment is an index panic, outer `none`),
parse it as a float (`expect` panics on failure, outer `none`), and wrap
the value in `Ok`.  The `Err` branch of the Rust signature is never built. -/
def get_http_version (full_version_string : Str) : Option (Except String Rat) :=
  let version_split := split ['/'] full_version_string
  match version_split.get? 1 with
  | none => none
  | some seg =>
    match parseF32 seg with
    | none => none
    | some v => some (.ok v)

/-- Worker of `get_headers_from_lines`: the loop over `lines[1..]`.  A line
without the `": "` separator makes `line_split[1]` panic (`none`). -/
def headersGo : List Str → List (Str × Str) → Option (List (Str × Str))
  | [], acc => some acc
  | line :: rest, acc =>
    if line = [] then some acc
    else
      match split (':' :: ' ' :: []) line with
      | k :: v :: _ => headersGo rest (insertAssoc acc k v)
      | _ => none

/-- Embedding of `get_headers_from_lines` (`src/web/mod.rs` lines 155-171):
consume lines from index 1 until an empty line, splitting each on `": "`
into key (segment 0) and value (segment 1); an empty result collapses to
`None`.  Slicing `lines[1..]` of an empty slice is a panic (outer `none`;
unreachable from `HttpRequest.from`, whose line list is never empty). -/
def get_headers_from_lines (lines : List Str) : Option (Option (List (Str × Str))) :=
  match lines with
  | [] => none
  | _ :: rest =>
    (headersGo rest []).map (fun hs => if hs = [] then none else some hs)

/-- Worker of `get_body_begin_index`: the loop reads `lines[i]` (a panic,
outer `none`, when no line is left), returns `None` when `i + 1` is past
the end, `Some (i + 1)` at a blank line followed by a non-blank line, and
advances otherwise.  The list argument is the suffix of the lines from
index `i`. -/
def bodyBeginGo : List Str → Nat → Option (Option Nat)
  | [], _ => none
  | [_], _ => some none
  | a :: b :: rest, i =>
    if a = [] ∧ b ≠ [] then some (some (i + 1))
    else bodyBeginGo (b :: rest) (i + 1)

/-- Embedding of `get_body_begin_index` (`src/web/mod.rs` lines 179-190). -/
def get_body_begin_index (lines : List Str) : Option (Option Nat) :=
  bodyBeginGo lines 0

/-- Http requests (`src/web/mod.rs`, `HttpRequest`).  `http_version` is the
exact rational value of the parsed `f32`. -/
structure HttpRequest where
  http_method : HttpMethod
  uri : Str
  http_version : Rat
  headers : Option (List (Str × Str))
  body : Option Str
deriving DecidableEq, Repr

/-- Embedding of `HttpRequest::from` (`src/web/mod.rs` lines 76-90): split
the raw request on `"\r\n"`, split the first line on single spaces, and
build the request from tokens 0 (method, `unwrap` panics on `Err`), 1 (uri)
and 2 (version), the header lines and the body lines.  Every missing token
is an index panic (`none`). -/
def HttpRequest.from (raw_request : Str) : Option HttpRequest :=
  let lines := split ('\r' :: '\n' :: []) raw_request
  let status_line := lines.getD 0 []
  let status_line_split := split [' '] status_line
  match status_line_split.get? 0, status_line_split.get? 1, status_line_split.get? 2 with
  | some methodTok, some uriTok, some versionTok =>
    match HttpMethod.from methodTok with
    | .error _ => none
    | .ok m =>
      match get_http_version versionTok with
      | none => none
      | some (.error _) => none
      | some (.ok v) =>
        match get_headers_from_lines lines with
        | none => none
        | some hs =>
          match get_body_begin_index lines with
          | none => none
          | some bodyIdx =>
            some { http_method := m, uri := uriTok, http_version := v,
                   headers := hs,
                   body := bodyIdx.map (fun i => join ('\r' :: '\n' :: []) (lines.drop i)) }
  | _, _, _ => none

/-- Worker of `HttpRequest::params`: the loop over the `&`-separated pieces.
`param_split[1]` of a piece without `=` is an index panic (`none`). -/
def paramsGo : List Str → List (Str × Str) → Option (List (Str × Str))
  | [], acc => some acc
  | piece :: rest, acc =>
    match split ['='] piece with
    | k :: v :: _ => paramsGo rest (insertAssoc acc k v)
    | _ => none

/-- Embedding of `HttpRequest::params` (`src/web/mod.rs` lines 112-130):
split the uri on `?`; fewer than two segments is `None`; otherwise split
segment 1 on `&`, insert key (segment 0 of the `=`-split) and value
(segment 1 of the `=`-split) per piece, and collapse an empty map to
`None`. -/
def HttpRequest.params (req : HttpRequest) : Option (Option (List (Str × Str))) :=
  let params_split := split ['?'] req.uri
  if params_split.length < 2 then some none
  else
    (paramsGo (split ['&'] (params_split.getD 1 [])) []).map
      (fun m => if m = [] then none else some m)

/-- Status codes.  Modelled from the spec: `StatusCode` lives in the crate's
`web` module but its source is not part of the snapshot; the spec gives a
closed enumeration with `Ok = 200` and `InternalServerError = 500`. -/
inductive StatusCode
  | Ok
  | InternalServerError
deriving DecidableEq, Repr

/-- Http responses.  Modelled from the spec: `HttpResponse` lives in the
crate's `web` module but its source is not part of the snapshot; the spec
gives `{ version : float, status : StatusCode }`. -/
structure HttpResponse where
  http_version : Rat
  status_code : StatusCode
deriving DecidableEq, Repr

/-- Routes (`src/server/mod.rs`, `Route`).  The callback type is abstract:
`κ` stands for the Rust `fn` pointers, whose derived `PartialEq` compares
addresses, so `κ` carries a decidable equality; `Server.delegate` gets the
pointed-to behaviour as a separate interpretation function. -/
structure Route (κ : Type) where
  http_method : HttpMethod
  uri : Str
  callback : κ
deriving DecidableEq, Repr

/-- Bindings (`src/server/mod.rs`, `Binding`). -/
structure Binding (κ : Type) where
  http_method : HttpMethod
  routes : List (Route κ)
deriving DecidableEq, Repr

/-- Embedding of `Route::bind`. -/
def Route.bind (κ : Type) (http_method : HttpMethod) : Binding κ :=
  { http_method := http_method, routes := [] }

/-- Embedding of `Binding::to`: push a route with the binding's method, the
given uri and the given callback. -/
def Binding.to (b : Binding κ) (uri : Str) (callback : κ) : Binding κ :=
  { b with routes := b.routes ++ [{ http_method := b.http_method, uri := uri, callback := callback }] }

/-- Servers (`src/server/mod.rs`, `Server`). -/
structure Server (κ : Type) where
  routes : List (Route κ)
deriving DecidableEq, Repr

/-- Embedding of `Server::route` (`src/server/mod.rs` lines 41-48): for each
route of the binding in order, panic (`none`) when an equal route (derived
`PartialEq`: method, uri and callback) is already stored, else push it. -/
def Server.route [DecidableEq κ] (s : Server κ) (binding : Binding κ) : Option (Server κ) :=
  binding.routes.foldlM
    (fun acc route =>
      if route ∈ acc.routes then none
      else some { routes := acc.routes ++ [route] })
    s

/-- Embedding of `Server::delegate` (`src/server/mod.rs` lines 50-56): find
the first route whose method and uri equal the request's, and return its
callback's response; `None` when there is none.  `run` interprets a
callback value as the Rust function it points to. -/
def Server.delegate [DecidableEq κ] (run : κ → HttpRequest → HttpResponse)
    (s : Server κ) (request : HttpRequest) : Option HttpResponse :=
  match s.routes.find?
      (fun route => decide (route.http_method = request.http_method ∧ route.uri = request.uri)) with
  | none => none
  | some route => some (run route.callback request)

/-! Laws of `split`. -/

theorem isPrefixOf_refl_append (l t : Str) : l.isPrefixOf (l ++ t) = true := by
  induction l with
  | nil => simp [List.isPrefixOf]
  | cons c cs ih => simp [List.isPrefixOf, ih]

theorem splitGo_fuel {sep : Str} :
    ∀ (f₁ : Nat) (s : Str) (f₂ : Nat) (cur : Str), s.length ≤ f₁ → s.length ≤ f₂ →
      splitGo sep f₁ cur s = splitGo sep f₂ cur s := by
  intro f₁
  induction f₁ with
  | zero =>
    intro s f₂ cur h₁ _
    have hs : s = [] := by
      cases s with
      | nil => rfl
      | cons c rest => simp at h₁
    subst hs
    cases f₂ <;> simp [splitGo]
  | succ f ih =>
    intro s f₂ cur h₁ h₂
    cases s with
    | nil => cases f₂ <;> simp [splitGo]
    | cons c rest =>
      obtain ⟨g, rfl⟩ : ∃ g, f₂ = g + 1 := ⟨f₂ - 1, by simp at h₂; omega⟩
      simp only [splitGo]
      cases hp : sep.isPrefixOf (c :: rest) with
      | true =>
        rw [if_pos rfl, if_pos rfl]
        exact congrArg _ (ih (rest.drop (sep.length - 1)) g []
          (by simp at h₁ ⊢; omega) (by simp at h₂ ⊢; omega))
      | false =>
        rw [if_neg (by simp), if_neg (by simp)]
        exact ih rest g (cur ++ [c]) (by simp at h₁ ⊢; omega) (by simp at h₂ ⊢; omega)

theorem splitGo_not_mem {d : Char} (sep' : Str) :
    ∀ (s : Str) (fuel : Nat) (cur : Str), d ∉ s → s.length ≤ fuel →
      splitGo (d :: sep') fuel cur s = [cur ++ s] := by
  intro s
  induction s with
  | nil => intro fuel cur _ _; cases fuel <;> simp [splitGo]
  | cons c rest ih =>
    intro fuel cur hmem hlen
    obtain ⟨f, rfl⟩ : ∃ f, fuel = f + 1 := ⟨fuel - 1, by simp at hlen; omega⟩
    simp only [List.mem_cons, not_or] at hmem
    have hdc : (d == c) = false := by simp [hmem.1]
    have hcond : ((d :: sep').isPrefixOf (c :: rest)) = false := by
      simp [List.isPrefixOf, hdc]
    simp only [splitGo, hcond]
    rw [if_neg (by simp)]
    rw [ih f (cur ++ [c]) hmem.2 (by simp at hlen ⊢; omega)]
    simp

/-- Splitting a string that holds no occurrence of the separator's first
character leaves it whole. -/
theorem split_not_mem {d : Char} (sep' : Str) (s : Str) (h : d ∉ s) :
    split (d :: sep') s = [s] :=
  splitGo_not_mem sep' s s.length [] h le_rfl

theorem splitGo_append {d : Char} (sep' : Str) :
    ∀ (a : Str) (fuel : Nat) (cur b : Str), d ∉ a →
      (a ++ (d :: sep') ++ b).length ≤ fuel →
      splitGo (d :: sep') fuel cur (a ++ (d :: sep') ++ b) =
        (cur ++ a) :: split (d :: sep') b := by
  intro a
  induction a with
  | nil =>
    intro fuel cur b _ hlen
    obtain ⟨f, rfl⟩ : ∃ f, fuel = f + 1 := ⟨fuel - 1, by simp at hlen; omega⟩
    have hpre : ((d :: sep').isPrefixOf (d :: (sep' ++ b))) = true :=
      isPrefixOf_refl_append (d :: sep') b
    simp only [List.nil_append, List.cons_append] at hlen ⊢
    simp only [splitGo, hpre]
    rw [if_pos trivial]
    have hdrop : (sep' ++ b).drop ((d :: sep').length - 1) = b := by
      simp only [List.length_cons, Nat.add_sub_cancel]
      exact List.drop_left sep' b
    rw [hdrop, split, splitGo_fuel f b b.length [] (by simp at hlen; omega) le_rfl]
    simp
  | cons x a' ih =>
    intro fuel cur b hmem hlen
    obtain ⟨f, rfl⟩ : ∃ f, fuel = f + 1 := ⟨fuel - 1, by simp at hlen; omega⟩
    simp only [List.mem_cons, not_or] at hmem
    have hdx : (d == x) = false := by simp [hmem.1]
    have hcond : ((d :: sep').isPrefixOf (x :: (a' ++ (d :: sep') ++ b))) = false := by
      simp [List.isPrefixOf, hdx]
    simp only [List.cons_append] at hcond ⊢
    simp only [splitGo, hcond]
    rw [if_neg (by simp)]
    have := ih f (cur ++ [x]) b hmem.2 (by simp at hlen ⊢; omega)
    simp only [List.append_assoc, List.cons_append] at this ⊢
    rw [this]
    simp

/-- Splitting around the first occurrence of the separator: the part before
it (free of the separator's first character) becomes the head segment. -/
theorem split_append {d : Char} (sep' : Str) (a b : Str) (h : d ∉ a) :
    split (d :: sep') (a ++ (d :: sep') ++ b) = a :: split (d :: sep') b :=
  splitGo_append sep' a (a ++ (d :: sep') ++ b).length [] b h le_rfl

theorem splitGo_ne_nil (sep : Str) :
    ∀ (fuel : Nat) (cur s : Str), splitGo sep fuel cur s ≠ [] := by
  intro fuel
  induction fuel with
  | zero => intro cur s; cases s <;> simp [splitGo]
  | succ f ih =>
    intro cur s
    cases s with
    | nil => simp [splitGo]
    | cons c rest =>
      simp only [splitGo]
      split
      · simp
      · exact ih _ _

/-- The result of a split is never the empty list. -/
theorem split_ne_nil (sep s : Str) : split sep s ≠ [] :=
  splitGo_ne_nil sep s.length [] s

/-- Facts about an ascii digit character that the parser proofs use. -/
theorem asciiDigit_facts {c : Char} (h : isAsciiDigit c = true) :
    c.toLower = c ∧ c ≠ ' ' ∧ c ≠ '\r' ∧ c ≠ '/' ∧ c ≠ '.' ∧ c ≠ 'e' ∧
      c ≠ '+' ∧ c ≠ '-' := by
  simp only [isAsciiDigit, decide_eq_true_eq] at h
  rcases h with rfl | rfl | rfl | rfl | rfl | rfl | rfl | rfl | rfl | rfl <;> decide

theorem not_mem_of_all_digits {x : Char} (hx : isAsciiDigit x = false) {l : Str}
    (hl : l.all isAsciiDigit = true) : x ∉ l := by
  intro hmem
  have hx' := List.all_eq_true.mp hl x hmem
  rw [hx] at hx'
  exact Bool.false_ne_true hx'

theorem map_toLower_of_all_digits {l : Str} (hl : l.all isAsciiDigit = true) :
    l.map Char.toLower = l := by
  induction l with
  | nil => rfl
  | cons c rest ih =>
    simp only [List.all_cons, Bool.and_eq_true] at hl
    simp [List.map_cons, (asciiDigit_facts hl.1).1, ih hl.2]

theorem digitsToNat?_isSome {l : Str} (hne : l ≠ []) (hl : l.all isAsciiDigit = true) :
    ∃ n, digitsToNat? l = some n :=
  ⟨l.foldl (fun a c => a * 10 + (c.toNat - 48)) 0, by simp [digitsToNat?, hne, hl]⟩

/-- `parseF32` succeeds on every numeral of the form `digits.digits`. -/
theorem parseF32_digits_dot {maj mi : Str} (hmaj₁ : maj ≠ [])
    (hmaj₂ : maj.all isAsciiDigit = true) (hmi₁ : mi ≠ [])
    (hmi₂ : mi.all isAsciiDigit = true) :
    ∃ v, parseF32 (maj ++ '.' :: mi) = some v := by
  obtain ⟨c, maj', rfl⟩ : ∃ c maj', maj = c :: maj' := by
    cases maj with
    | nil => exact absurd rfl hmaj₁
    | cons c maj' => exact ⟨c, maj', rfl⟩
  have hc : isAsciiDigit c = true := by
    simp only [List.all_cons, Bool.and_eq_true] at hmaj₂
    exact hmaj₂.1
  have hstrip : stripSign ((c :: maj') ++ '.' :: mi) = (false, (c :: maj') ++ '.' :: mi) := by
    simp only [List.cons_append, stripSign]
    rw [if_neg (asciiDigit_facts hc).2.2.2.2.2.2.1, if_neg (asciiDigit_facts hc).2.2.2.2.2.2.2]
  have halldot : ∀ x ∈ (c :: maj') ++ '.' :: mi, x.toLower = x ∧ x ≠ 'e' := by
    intro x hx
    rcases List.mem_append.mp hx with hx | hx
    · have := List.all_eq_true.mp hmaj₂ x hx
      exact ⟨(asciiDigit_facts this).1, (asciiDigit_facts this).2.2.2.2.2.1⟩
    · rcases List.mem_cons.mp hx with rfl | hx
      · exact ⟨by decide, by decide⟩
      · have := List.all_eq_true.mp hmi₂ x hx
        exact ⟨(asciiDigit_facts this).1, (asciiDigit_facts this).2.2.2.2.2.1⟩
  have hlower : ((c :: maj') ++ '.' :: mi).map Char.toLower = (c :: maj') ++ '.' :: mi := by
    rw [List.map_congr_left (fun x hx => (halldot x hx).1)]
    simp
  have hnoe : 'e' ∉ (c :: maj') ++ '.' :: mi := fun hmem => (halldot _ hmem).2 rfl
  have hsplitE : split ['e'] ((c :: maj') ++ '.' :: mi) = [(c :: maj') ++ '.' :: mi] :=
    split_not_mem [] _ hnoe
  have hnodot : '.' ∉ (c :: maj') := not_mem_of_all_digits (x := '.') (by decide) hmaj₂
  have hsplitDot : split ['.'] ((c :: maj') ++ '.' :: mi) = [c :: maj', mi] := by
    have h₂ := split_append (d := '.') [] (c :: maj') mi hnodot
    simpa [split_not_mem (d := '.') [] mi
      (not_mem_of_all_digits (x := '.') (by decide) hmi₂)] using h₂
  obtain ⟨n, hn⟩ := digitsToNat?_isSome (l := c :: maj') (by simp) hmaj₂
  obtain ⟨f, hf⟩ := digitsToNat?_isSome hmi₁ hmi₂
  simp only [parseF32, hstrip, hlower, hsplitE]
  simp only [parseMantissa?, hsplitDot]
  rw [if_neg (by simp), if_neg hmi₁, hn, hf]
  exact ⟨_, rfl⟩

/-! Claim theorems. -/

/-- C1 counterexample: a second registration of the already-bound binding
(GET, "/") whose callback differs from the stored one is not fatal:
`Server::route` completes normally and stores both routes, because the
duplicate check compares whole routes with the derived `PartialEq`,
callback included. -/
theorem route_duplicate_binding_different_callback_accepted :
    Server.route (κ := Nat)
        { routes := [{ http_method := .Get, uri := "/".toList, callback := 0 }] }
        { http_method := .Get,
          routes := [{ http_method := .Get, uri := "/".toList, callback := 1 }] } =
      some { routes := [{ http_method := .Get, uri := "/".toList, callback := 0 },
                        { http_method := .Get, uri := "/".toList, callback := 1 }] } := by
  decide

/-- C1 (amended): a subsequent registration of a binding through
`Server::route` is fatal (panics) precisely when the route collection
already holds the identical route — equal method, equal uri AND equal
callback, the derived `PartialEq` of `Route`; a registration of the same
(method, uri) under a different callback is accepted. -/
theorem route_single_registration_fatal_iff_identical_route [DecidableEq κ]
    (s : Server κ) (m : HttpMethod) (u : Str) (cb : κ) :
    Server.route s (Binding.mk m [Route.mk m u cb]) = none ↔
      Route.mk m u cb ∈ s.routes := by
  by_cases h : Route.mk m u cb ∈ s.routes <;>
    simp [Server.route, List.foldlM, h]

/-- C2 (code bug): on the raw request "GET /\r\n\r\n" — a status line of
two space-separated tokens — `HttpRequest::from` dies with an index panic
reading `status_line_split[2]`; no typed `MalformedRequest` failure is
surfaced to the caller, whose signature returns a bare `HttpRequest`. -/
theorem from_short_status_line_panics :
    HttpRequest.from ("GET /\r\n\r\n".toList) = none := by decide

/-- C4 (code bug): `get_http_version` panics (`expect`) on the malformed
numeral of "HTTP/G" and panics (index out of range) on "HTTP-1.1", a token
without a '/' separator; on no input at all does it produce the `Err`
branch of its own signature, so a typed `InvalidVersion` error is never
returned to the caller. -/
theorem get_http_version_never_returns_error :
    get_http_version ("HTTP/G".toList) = none ∧
    get_http_version ("HTTP-1.1".toList) = none ∧
    ∀ s : Str, get_http_version s = none ∨ ∃ v, get_http_version s = some (Except.ok v) := by
  refine ⟨by decide, by decide, fun s => ?_⟩
  cases h : (split ['/'] s)[1]? with
  | none => exact Or.inl (by simp [get_http_version, h])
  | some seg =>
    cases hp : parseF32 seg with
    | none => exact Or.inl (by simp [get_http_version, h, hp])
    | some v => exact Or.inr ⟨v, by simp [get_http_version, h, hp]⟩

/-- C5 (code bug): a non-empty header line without the "\x3a " separator —
here "NoSeparator" — makes `get_headers_from_lines` die with an index panic
reading `line_split[1]`, and the panic propagates through
`HttpRequest::from`; no typed `MalformedHeader` failure is surfaced. -/
theorem headers_line_without_separator_panics :
    get_headers_from_lines ["GET / HTTP/1.1".toList, "NoSeparator".toList, []] = none ∧
    HttpRequest.from ("GET / HTTP/1.1\r\nNoSeparator\r\n\r\n".toList) = none :=
  ⟨by decide, by decide⟩

/-- C8: `HttpMethod::from` matches its token case-insensitively against the
four known methods — a variant is returned exactly when the lowercased
token is that method's name, so "GET", "get" and "GeT" all yield `Get` —
and every token outside the four under any casing gets the `Err` result,
never a default variant. -/
theorem httpMethod_from_case_insensitive (s : Str) :
    (HttpMethod.from s = .ok .Get ↔ toLowercase s = "get".toList) ∧
    (HttpMethod.from s = .ok .Post ↔ toLowercase s = "post".toList) ∧
    (HttpMethod.from s = .ok .Delete ↔ toLowercase s = "delete".toList) ∧
    (HttpMethod.from s = .ok .Options ↔ toLowercase s = "options".toList) ∧
    (toLowercase s ≠ "get".toList → toLowercase s ≠ "post".toList →
      toLowercase s ≠ "delete".toList → toLowercase s ≠ "options".toList →
      HttpMethod.from s = .error "Given cannot be converted to HttpMethod") ∧
    HttpMethod.from ("GET".toList) = .ok .Get ∧
    HttpMethod.from ("get".toList) = .ok .Get ∧
    HttpMethod.from ("GeT".toList) = .ok .Get := by
  refine ⟨?_, ?_, ?_, ?_, ?_, by decide, by decide, by decide⟩ <;>
  · unfold HttpMethod.from
    split_ifs with h₁ h₂ h₃ h₄ <;> simp_all

/-- Dispatch as a mapped `find?`. -/
theorem delegate_eq [DecidableEq κ] (run : κ → HttpRequest → HttpResponse)
    (s : Server κ) (request : HttpRequest) :
    Server.delegate run s request =
      (s.routes.find? (fun route =>
          decide (route.http_method = request.http_method ∧ route.uri = request.uri))).map
        (fun r => run r.callback request) := by
  unfold Server.delegate
  cases s.routes.find? _ <;> rfl

/-- C3: `Server::delegate` returns a handler response exactly when some
registered route equals the request on method and on uri under exact
string equality — the uri compared raw, query string included, with no
normalization — and the response is that route's callback run on the
request; with no matching route it returns the explicit `None`,
distinguishable from every response, and it never panics (the embedding
is total). -/
theorem delegate_exact_match_or_not_found [DecidableEq κ]
    (run : κ → HttpRequest → HttpResponse) (s : Server κ) (request : HttpRequest) :
    (Server.delegate run s request = none ↔
      ∀ r ∈ s.routes, ¬(r.http_method = request.http_method ∧ r.uri = request.uri)) ∧
    (∀ resp, Server.delegate run s request = some resp →
      ∃ r ∈ s.routes, r.http_method = request.http_method ∧ r.uri = request.uri ∧
        resp = run r.callback request) := by
  rw [delegate_eq]
  constructor
  · simp [Option.map_eq_none', List.find?_eq_none]
  · intro resp h
    obtain ⟨r, hfind, hresp⟩ := Option.map_eq_some'.mp h
    have hmem := List.mem_of_find?_eq_some hfind
    have hp := List.find?_some hfind
    simp only [decide_eq_true_eq] at hp
    exact ⟨r, hmem, hp.1, hp.2, hresp.symm⟩

theorem routeFold_preserves_nodup [DecidableEq κ] :
    ∀ (l : List (Route κ)) (s s' : Server κ), s.routes.Nodup →
      l.foldlM (fun acc route => if route ∈ acc.routes then none
        else some { routes := acc.routes ++ [route] }) s = some s' →
      s'.routes.Nodup := by
  intro l
  induction l with
  | nil =>
    intro s s' hs h
    simp only [List.foldlM] at h
    cases h
    exact hs
  | cons r rest ih =>
    intro s s' hs h
    simp only [List.foldlM] at h
    by_cases hr : r ∈ s.routes
    · rw [if_pos hr] at h
      simp at h
    · rw [if_neg hr] at h
      simp only [Option.bind_eq_bind, Option.some_bind] at h
      refine ih { routes := s.routes ++ [r] } s' ?_ h
      simp [List.nodup_append, hs, hr]

/-- A non-panicking `Server::route` call keeps the route list duplicate
free. -/
theorem route_preserves_nodup [DecidableEq κ] {s s' : Server κ} {b : Binding κ}
    (hs : s.routes.Nodup) (h : Server.route s b = some s') : s'.routes.Nodup :=
  routeFold_preserves_nodup b.routes s s' hs h

/-- C10: after every sequence of `Server::route` calls, starting from the
default server, that completes without a panic, the stored route
collection holds no two equal routes (method, uri and callback all equal);
the check is incremental — each pushed route was compared against all
routes pushed before it, including routes added earlier within the same
call — so the invariant also covers multi-route bindings. -/
theorem route_calls_leave_routes_nodup [DecidableEq κ] (bs : List (Binding κ)) (s' : Server κ)
    (h : bs.foldlM (fun s b => Server.route s b) (Server.mk ([] : List (Route κ))) = some s') :
    s'.routes.Nodup := by
  suffices key : ∀ (cs : List (Binding κ)) (s t : Server κ), s.routes.Nodup →
      cs.foldlM (fun s b => Server.route s b) s = some t → t.routes.Nodup from
    key bs (Server.mk []) s' (by simp) h
  intro cs
  induction cs with
  | nil =>
    intro s t hs h
    simp only [List.foldlM] at h
    cases h
    exact hs
  | cons b rest ih =>
    intro s t hs h
    simp only [List.foldlM] at h
    cases hr : Server.route s b with
    | none => rw [hr] at h; simp at h
    | some s₁ =>
      rw [hr] at h
      simp only [Option.bind_eq_bind, Option.some_bind] at h
      exact ih s₁ t (route_preserves_nodup hs hr) h

/-- Binding fixture: one `Server::route` call adding two routes. -/
def bindingW₁ : Binding Nat := ((Route.bind Nat .Get).to "/".toList 0).to "/bad".toList 1

/-- Binding fixture: a second call adding one route. -/
def bindingW₂ : Binding Nat := (Route.bind Nat .Post).to "/".toList 2

/-- C10 witness: a concrete two-call registration sequence (the first call
adds two routes) completes and leaves a duplicate-free collection. -/
theorem route_calls_nodup_witness :
    (Server.mk [Route.mk .Get "/".toList 0, Route.mk .Get "/bad".toList 1,
        Route.mk .Post "/".toList 2] : Server Nat).routes.Nodup :=
  route_calls_leave_routes_nodup [bindingW₁, bindingW₂] _ (by decide)

/-- Fixture request whose uri's single query piece holds two '=' signs. -/
def reqEqEq : HttpRequest :=
  { http_method := .Get, uri := "/hello?a=b=c".toList, http_version := 1,
    headers := none, body := none }

/-- C6 counterexample: for uri "/hello?a=b=c" the stored value is "b", the
segment between the first and the second '=', not the full remainder "b=c"
that the claim predicts. -/
theorem params_value_not_full_remainder :
    HttpRequest.params reqEqEq = some (some [("a".toList, "b".toList)]) ∧
    HttpRequest.params reqEqEq ≠ some (some [("a".toList, "b=c".toList)]) :=
  ⟨by decide, by decide⟩

theorem paramsGo_all_long (l : List Str) :
    ∀ acc, (∀ piece ∈ l, 2 ≤ (split ['='] piece).length) →
      paramsGo l acc = some (l.foldl (fun acc piece =>
        insertAssoc acc ((split ['='] piece).getD 0 [])
          ((split ['='] piece).getD 1 [])) acc) := by
  induction l with
  | nil => intro acc _; rfl
  | cons piece rest ih =>
    intro acc h
    have hp := h piece (List.mem_cons_self _ _)
    obtain ⟨k, v, tl, hsp⟩ : ∃ k v tl, split ['='] piece = k :: v :: tl := by
      cases hm : split ['='] piece with
      | nil => rw [hm] at hp; simp at hp
      | cons k t₁ =>
        cases t₁ with
        | nil => rw [hm] at hp; simp at hp
        | cons v tl => exact ⟨k, v, tl, rfl⟩
    simp only [paramsGo, hsp, List.foldl_cons]
    rw [ih _ (fun p hp' => h p (List.mem_cons_of_mem _ hp'))]
    simp [hsp]

theorem paramsGo_short (l : List Str) :
    ∀ acc, (∃ piece ∈ l, (split ['='] piece).length < 2) → paramsGo l acc = none := by
  induction l with
  | nil => intro acc h; simp at h
  | cons piece rest ih =>
    intro acc h
    cases hm : split ['='] piece with
    | nil => simp [paramsGo, hm]
    | cons k t₁ =>
      cases t₁ with
      | nil => simp [paramsGo, hm]
      | cons v tl =>
        simp only [paramsGo, hm]
        apply ih
        rcases h with ⟨p, hpmem, hplen⟩
        rcases List.mem_cons.mp hpmem with rfl | hp'
        · rw [hm] at hplen; simp at hplen; omega
        · exact ⟨p, hp', hplen⟩

/-- C6 (amended): a uri without '?' (fewer than two '?'-split segments)
gives absent params; otherwise the second '?' segment splits on '&', and
each piece contributes the pair (segment 0, segment 1) of its full
'='-split — so the value is the text between the first and the second '=',
not the whole remainder of the piece — with a later occurrence of a key
overwriting the earlier one; a piece without '=' is an index panic. -/
theorem params_pairs_from_eq_split (req : HttpRequest) :
    ((split ['?'] req.uri).length < 2 → req.params = some none) ∧
    (∀ p₀ p₁ ps, split ['?'] req.uri = p₀ :: p₁ :: ps →
      ((∃ piece ∈ split ['&'] p₁, (split ['='] piece).length < 2) →
        req.params = none) ∧
      ((∀ piece ∈ split ['&'] p₁, 2 ≤ (split ['='] piece).length) →
        req.params =
          some (
            let m := (split ['&'] p₁).foldl (fun acc piece =>
              insertAssoc acc ((split ['='] piece).getD 0 [])
                ((split ['='] piece).getD 1 [])) [];
            if m = [] then none else some m))) := by
  constructor
  · intro h
    simp [HttpRequest.params, h]
  · intro p₀ p₁ ps hsp
    have hlen : ¬ (split ['?'] req.uri).length < 2 := by rw [hsp]; simp
    constructor
    · intro hex
      simp only [HttpRequest.params]
      rw [if_neg hlen, hsp]
      rw [show (p₀ :: p₁ :: ps).getD 1 [] = p₁ from rfl]
      rw [paramsGo_short _ _ hex]
      rfl
    · intro hall
      simp only [HttpRequest.params]
      rw [if_neg hlen, hsp]
      rw [show (p₀ :: p₁ :: ps).getD 1 [] = p₁ from rfl]
      rw [paramsGo_all_long _ _ hall]
      rfl

/-- Fixture request for the C6 witness: a two-'=' piece and a duplicate
key. -/
def reqW₆ : HttpRequest :=
  { http_method := .Get, uri := "/h?a=b=c&a=z".toList, http_version := 1,
    headers := none, body := none }

/-- C6 witness: at uri "/h?a=b=c&a=z" the amended description evaluates to
the map [(a, z)]: piece "a=b=c" contributes a/"b" and the later piece
"a=z" overwrites the key. -/
theorem params_pairs_witness :
    HttpRequest.params reqW₆ = some (some [("a".toList, "z".toList)]) := by
  have h := ((params_pairs_from_eq_split reqW₆).2 "/h".toList "a=b=c&a=z".toList []
    (by decide)).2 (by decide)
  exact h.trans (by decide)

/-- Index of the first blank line that is immediately followed by a
non-blank line — the spec's wording of the body rule, written as a clean
recursion to compare with the source's index-threading loop. -/
def firstBlankThenNonblank : List Str → Option Nat
  | a :: b :: rest =>
    if a = [] ∧ b ≠ [] then some 0
    else (firstBlankThenNonblank (b :: rest)).map (· + 1)
  | _ => none

theorem bodyBeginGo_eq (l : List Str) : ∀ i, l ≠ [] →
    bodyBeginGo l i = some ((firstBlankThenNonblank l).map (fun k => i + k + 1)) := by
  induction l with
  | nil => intro i h; exact absurd rfl h
  | cons a tail ih =>
    intro i _
    cases tail with
    | nil => rfl
    | cons b rest =>
      by_cases hab : a = [] ∧ b ≠ []
      · simp [bodyBeginGo, firstBlankThenNonblank, hab]
      · rw [show bodyBeginGo (a :: b :: rest) i = bodyBeginGo (b :: rest) (i + 1) from by
          simp [bodyBeginGo, hab]]
        rw [ih (i + 1) (by simp)]
        rw [show firstBlankThenNonblank (a :: b :: rest) =
            (firstBlankThenNonblank (b :: rest)).map (· + 1) from by
          simp [firstBlankThenNonblank, hab]]
        cases firstBlankThenNonblank (b :: rest) with
        | none => rfl
        | some k => simp; omega

/-- Inversion of a successful parse: the body field comes from
`get_body_begin_index` over the split lines. -/
theorem from_eq_some_body (raw : Str) (req : HttpRequest)
    (h : HttpRequest.from raw = some req) :
    ∃ bodyIdx, get_body_begin_index (split ('\r' :: '\n' :: []) raw) = some bodyIdx ∧
      req.body = bodyIdx.map
        (fun i => join ('\r' :: '\n' :: []) ((split ('\r' :: '\n' :: []) raw).drop i)) := by
  simp only [HttpRequest.from] at h
  repeat' split at h
  all_goals try exact Option.noConfusion h
  all_goals injection h with h'
  all_goals subst h'
  all_goals exact ⟨_, by assumption, rfl⟩

/-- C7: for every raw request that parses, the body is exactly the lines
from the first blank line that is immediately followed by a non-blank line
onward, rejoined with the line terminator; when no blank-then-nonblank
transition exists the body is absent — in particular a blank line followed
only by blank lines up to end of input yields no body. -/
theorem body_from_first_blank_then_nonblank (raw : Str) (req : HttpRequest)
    (h : HttpRequest.from raw = some req) :
    req.body = (firstBlankThenNonblank (split ('\r' :: '\n' :: []) raw)).map
      (fun k => join ('\r' :: '\n' :: []) ((split ('\r' :: '\n' :: []) raw).drop (k + 1))) := by
  obtain ⟨bodyIdx, hbi, hbody⟩ := from_eq_some_body raw req h
  unfold get_body_begin_index at hbi
  rw [bodyBeginGo_eq (split ('\r' :: '\n' :: []) raw) 0 (split_ne_nil _ _)] at hbi
  injection hbi with hbi'
  rw [hbody, ← hbi']
  cases firstBlankThenNonblank (split ('\r' :: '\n' :: []) raw) with
  | none => rfl
  | some k => simp

/-- Raw fixture for the C7 witness: a body with trailing blank lines. -/
def rawW₇ : Str := "GET / HTTP/1.1\r\nContent-Type: x\r\n\r\nbody\r\n\r\n".toList

/-- Parse of `rawW₇`. -/
def reqW₇ : HttpRequest :=
  { http_method := .Get, uri := "/".toList, http_version := mkRat 11 10,
    headers := some [("Content-Type".toList, "x".toList)],
    body := some ("body\r\n\r\n".toList) }

/-- Raw fixture for the C7 witness: blank line at end of input only. -/
def rawN₇ : Str := "GET / HTTP/1.1\r\n\r\n".toList

/-- Parse of `rawN₇`. -/
def reqN₇ : HttpRequest :=
  { http_method := .Get, uri := "/".toList, http_version := mkRat 11 10,
    headers := none, body := none }

/-- C7 witness: a parse whose body is followed by trailing blank lines
keeps them in the body, and a request whose blank line is followed only by
end of input (after another blank line) has no body. -/
theorem body_first_transition_witness :
    reqW₇.body = some ("body\r\n\r\n".toList) ∧ reqN₇.body = none :=
  ⟨(body_from_first_blank_then_nonblank rawW₇ reqW₇ (by decide)).trans (by decide),
   (body_from_first_blank_then_nonblank rawN₇ reqN₇ (by decide)).trans (by decide)⟩

theorem not_mem_ver {x : Char} (hx : isAsciiDigit x = false) (hdot : x ≠ '.')
    {maj mi : Str} (hmaj : maj.all isAsciiDigit = true)
    (hmi : mi.all isAsciiDigit = true) : x ∉ maj ++ '.' :: mi := by
  intro hmem
  rcases List.mem_append.mp hmem with h | h
  · exact not_mem_of_all_digits hx hmaj h
  · rcases List.mem_cons.mp h with h | h
    · exact hdot h
    · exact not_mem_of_all_digits hx hmi h

theorem not_mem_vtok {x : Char} (h₁ : x ≠ 'H') (h₂ : x ≠ 'T') (h₃ : x ≠ 'P')
    (h₄ : x ≠ '/') (hx : isAsciiDigit x = false) (hdot : x ≠ '.')
    {maj mi : Str} (hmaj : maj.all isAsciiDigit = true)
    (hmi : mi.all isAsciiDigit = true) :
    x ∉ ('H' :: 'T' :: 'T' :: 'P' :: '/' :: (maj ++ '.' :: mi)) := by
  intro hmem
  simp only [List.mem_cons] at hmem
  rcases hmem with h | h | h | h | h | h
  · exact h₁ h
  · exact h₂ h
  · exact h₂ h
  · exact h₃ h
  · exact h₄ h
  · exact not_mem_ver hx hdot hmaj hmi h

/-- C9: for every well-formed status line
"METHOD URI HTTP/MAJOR.MINOR\r\n" — the method a token the method parser
accepts, the URI free of spaces (and of the line terminator), MAJOR and
MINOR non-empty digit strings — parsing the raw request made of that line
yields a request whose method is the token's variant, whose uri is the URI
token verbatim (query string and all, no normalization), and whose version
is the parsed value of the numeral MAJOR.MINOR; headers and body are
absent. -/
theorem from_wellformed_status_line_roundtrip (methodTok uri maj mi : Str)
    (M : HttpMethod) (hm : HttpMethod.from methodTok = .ok M)
    (hmsp : ' ' ∉ methodTok) (hmcr : '\r' ∉ methodTok)
    (husp : ' ' ∉ uri) (hucr : '\r' ∉ uri)
    (hmaj₁ : maj ≠ []) (hmaj₂ : maj.all isAsciiDigit = true)
    (hmi₁ : mi ≠ []) (hmi₂ : mi.all isAsciiDigit = true) :
    ∃ req, HttpRequest.from
        (methodTok ++ [' '] ++ uri ++ [' '] ++
          ('H' :: 'T' :: 'T' :: 'P' :: '/' :: (maj ++ '.' :: mi)) ++
          ('\r' :: '\n' :: [])) = some req ∧
      req.http_method = M ∧ req.uri = uri ∧
      parseF32 (maj ++ '.' :: mi) = some req.http_version ∧
      req.headers = none ∧ req.body = none := by
  set vtok : Str := 'H' :: 'T' :: 'T' :: 'P' :: '/' :: (maj ++ '.' :: mi) with hvtok
  set st : Str := methodTok ++ [' '] ++ uri ++ [' '] ++ vtok with hst
  have hst_cr : '\r' ∉ st := by
    intro hmem
    rw [hst] at hmem
    simp only [List.mem_append, List.mem_singleton] at hmem
    rcases hmem with ((((h | h) | h) | h) | h)
    · exact hmcr h
    · exact absurd h (by decide)
    · exact hucr h
    · exact absurd h (by decide)
    · exact not_mem_vtok (by decide) (by decide) (by decide) (by decide)
        (by decide) (by decide) hmaj₂ hmi₂ (hvtok ▸ h)
  have hvt_sp : ' ' ∉ vtok := by
    rw [hvtok]
    exact not_mem_vtok (by decide) (by decide) (by decide) (by decide)
      (by decide) (by decide) hmaj₂ hmi₂
  have hsls : split [' '] st = [methodTok, uri, vtok] := by
    rw [hst, show methodTok ++ [' '] ++ uri ++ [' '] ++ vtok =
      methodTok ++ [' '] ++ (uri ++ [' '] ++ vtok) from by simp [List.append_assoc]]
    rw [split_append [] methodTok (uri ++ [' '] ++ vtok) hmsp]
    rw [split_append [] uri vtok husp]
    rw [split_not_mem [] vtok hvt_sp]
  have hsplitSlash : split ['/'] vtok = [['H', 'T', 'T', 'P'], maj ++ '.' :: mi] := by
    have h₁ := split_append (d := '/') [] ['H', 'T', 'T', 'P'] (maj ++ '.' :: mi)
      (by decide)
    rw [split_not_mem [] _ (not_mem_ver (by decide) (by decide) hmaj₂ hmi₂)] at h₁
    exact h₁
  obtain ⟨v, hpf⟩ := parseF32_digits_dot hmaj₁ hmaj₂ hmi₁ hmi₂
  have hgv : get_http_version vtok = some (.ok v) := by
    simp only [get_http_version, hsplitSlash]
    rw [show ([['H', 'T', 'T', 'P'], maj ++ '.' :: mi] : List Str).get? 1 =
      some (maj ++ '.' :: mi) from rfl]
    simp only [hpf]
  have hlines : split ('\r' :: '\n' :: []) (st ++ ('\r' :: '\n' :: [])) = [st, []] := by
    rw [show st ++ ('\r' :: '\n' :: []) = st ++ ('\r' :: '\n' :: []) ++ [] from
      (List.append_nil _).symm]
    rw [split_append ['\n'] st [] hst_cr]
    rfl
  have hhd : get_headers_from_lines [st, []] = some none := by
    simp [get_headers_from_lines, headersGo]
  have hbd : get_body_begin_index [st, []] = some none := by
    simp [get_body_begin_index, bodyBeginGo]
  refine ⟨⟨M, uri, v, none, none⟩, ?_, rfl, rfl, by rw [hpf], rfl, rfl⟩
  simp only [HttpRequest.from, hlines]
  rw [show ([st, ([] : Str)] : List Str).getD 0 [] = st from rfl]
  rw [hsls]
  rw [show ([methodTok, uri, vtok] : List Str).get? 0 = some methodTok from rfl]
  rw [show ([methodTok, uri, vtok] : List Str).get? 1 = some uri from rfl]
  rw [show ([methodTok, uri, vtok] : List Str).get? 2 = some vtok from rfl]
  simp only [hm, hgv, hhd, hbd]
  rfl

/-- C9 witness: the concrete status line "GET / HTTP/1.1\r\n" round-trips —
parsing it yields method GET, uri "/", and the version value of the
numeral "1.1", with headers and body absent. -/
theorem from_roundtrip_witness :
    ∃ req, HttpRequest.from (['G', 'E', 'T'] ++ [' '] ++ ['/'] ++ [' '] ++
        ('H' :: 'T' :: 'T' :: 'P' :: '/' :: (['1'] ++ '.' :: ['1'])) ++
        ('\r' :: '\n' :: [])) = some req ∧
      req.http_method = .Get ∧ req.uri = ['/'] ∧
      parseF32 (['1'] ++ '.' :: ['1']) = some req.http_version ∧
      req.headers = none ∧ req.body = none :=
  from_wellformed_status_line_roundtrip ['G', 'E', 'T'] ['/'] ['1'] ['1'] .Get
    (by decide) (by decide) (by decide) (by decide) (by decide)
    (by decide) (by decide) (by decide) (by decide)

end Martian
